import Mathlib

/-
Verification of the word-level bigram language model in
MiniModel/py/outloud_mini_lm.py (class BigramModel).

The Python source is shallowly embedded below:
* dictionaries (which iterate in insertion order) become association
  lists whose order is the insertion order;
* the Python set built by get_following_words is modelled by the list of
  its elements in first-insertion order together with an explicit
  iteration-order parameter, because CPython iterates a set of strings
  in a hash-dependent, unspecified order, not in insertion order;
* float arithmetic is modelled by exact rationals;
* random.random draws are modelled by an explicit stream of rational
  values indexed by draw position, and random.seed by replacing that
  stream with one determined by the seed;
* operations that can raise a Python exception return none or
  Except.error at exactly the program points where the exception would
  be raised.
-/

set_option autoImplicit false

namespace OutloudMiniLM

/-- The character class matched by the regex token w in the pattern
used by BigramModel.tokenize, restricted to ASCII: letters, digits and
the underscore. -/
def isWordChar (c : Char) : Bool :=
  c.isAlphanum || c = '_'

/-- Scan for the first double quote: on success returns the characters
before it and the characters after it.  This models the greedy regex
fragment matching any run of non-quote characters followed by a closing
quote. -/
def splitAtQuote (l : List Char) : Option (List Char × List Char) :=
  let inner := l.takeWhile (fun c => c ≠ '"')
  let rest := l.dropWhile (fun c => c ≠ '"')
  match rest with
  | '"' :: after => some (inner, after)
  | _ => none

/-- One left-to-right scan of re.findall for the tokenize regex: a run
of word characters immediately followed by an equals sign, an opening
quote, any non-quote characters and a closing quote; or else a plain
run of word characters.  The fuel argument bounds the number of scan
steps; every step consumes at least one character, so fuel equal to the
length of the input is always enough. -/
def tokenizeAux : Nat → List Char → List (List Char)
  | 0, _ => []
  | _ + 1, [] => []
  | fuel + 1, c :: cs =>
    if isWordChar c then
      let run := (c :: cs).takeWhile isWordChar
      let rest := (c :: cs).dropWhile isWordChar
      match rest with
      | '=' :: '"' :: rest2 =>
        match splitAtQuote rest2 with
        | some (inner, rest3) =>
          (run ++ '=' :: '"' :: (inner ++ ['"'])) :: tokenizeAux fuel rest3
        | none => run :: tokenizeAux fuel rest
      | _ => run :: tokenizeAux fuel rest
    else
      tokenizeAux fuel cs

/-- BigramModel.tokenize: re.findall of the quoted key-value pattern or
a plain word, left to right, non-overlapping. -/
def tokenize (s : String) : List String :=
  (tokenizeAux s.data.length s.data).map fun l => String.mk l

/-- The Python str.lower method, modelled characterwise (adequate for
the ASCII corpus this program works with). -/
def pyLower (s : String) : String :=
  String.mk (s.data.map Char.toLower)

/-- The Python str.strip method: remove leading and trailing
whitespace. -/
def pyStrip (s : String) : String :=
  String.mk (((s.data.dropWhile Char.isWhitespace).reverse.dropWhile
    Char.isWhitespace).reverse)

/-- The dictionary self.bigram_counts: keys are (predecessor,
successor) pairs and the association list order is the dictionary
insertion order. -/
abbrev BigramCounts := List ((String × String) × Nat)

/-- Dictionary lookup in bigram_counts. -/
def lookupBC (bc : BigramCounts) (k : String × String) : Option Nat :=
  (bc.find? fun e => e.1 = k).map fun e => e.2

/-- The statement d[k] = d.get(k, 0) + 1 on an insertion-ordered
dictionary: an existing key keeps its position, a new key is appended
at the end with count 1. -/
def bump {α : Type} [DecidableEq α] : List (α × Nat) → α → List (α × Nat)
  | [], k => [(k, 1)]
  | (q, c) :: rest, k =>
    if q = k then (q, c + 1) :: rest else (q, c) :: bump rest k

/-- The state of a BigramModel object. -/
structure Model where
  bigram_counts : BigramCounts
  word_counts : List (String × Nat)
  cumulative_probs : List (String × List (String × ℚ))
deriving Repr, DecidableEq

/-- One step of BigramModel.get_following_words: record the successor s
for the predecessor p.  The Python code stores the successors of each
predecessor in a set; here the set is represented by the list of its
elements in first-insertion order, so adding an element that is already
present changes nothing and a new element is appended. -/
def addFollowing : List (String × List String) → String → String →
    List (String × List String)
  | [], p, s => [(p, [s])]
  | (q, l) :: rest, p, s =>
    if q = p then (q, if s ∈ l then l else l ++ [s]) :: rest
    else (q, l) :: addFollowing rest p s

/-- BigramModel.get_following_words: scan bigram_counts in insertion
order and group the successors of each predecessor.  The outer
dictionary iterates in insertion order of predecessors; each value
stands for a Python set, represented by its elements in first-insertion
order. -/
def get_following_words (bc : BigramCounts) : List (String × List String) :=
  bc.foldl (fun fw e => addFollowing fw e.1.1 e.1.2) []

/-- The inner loop of calculate_cumulative_probabilities: walk the
successors in the given iteration order, keeping a running cumulative
probability.  Every successor passed in comes from a recorded bigram,
so the bigram_counts lookup always succeeds; getD 0 only gives the
partial lookup a total type. -/
def cumListAux (bc : BigramCounts) (p : String) (total : ℚ) :
    List String → ℚ → List (String × ℚ)
  | [], _ => []
  | s :: rest, acc =>
    let acc2 := acc + ((lookupBC bc (p, s)).getD 0 : ℚ) / total
    (s, acc2) :: cumListAux bc p total rest acc2

/-- A function is a possible iteration order over a Python set,
represented by the list of its elements, exactly when it lists each
element of the set exactly once. -/
def isValidSetOrder (so : List String → List String) : Prop :=
  ∀ l : List String, (so l).Perm l

/-- BigramModel.calculate_cumulative_probabilities.  The parameter so
is the iteration order CPython happens to use on each successor set;
the source iterates the set directly, and the language fixes no
particular order. -/
def calculate_cumulative_probabilities
    (so : List String → List String) (bc : BigramCounts) :
    List (String × List (String × ℚ)) :=
  (get_following_words bc).map fun pr =>
    let ordered := so pr.2
    let total : ℚ := (ordered.map fun w => ((lookupBC bc (pr.1, w)).getD 0 : ℚ)).sum
    (pr.1, cumListAux bc pr.1 total ordered 0)

/-- The successor names listed by each distribution, with the
cumulative values dropped. -/
def distNames (cp : List (String × List (String × ℚ))) :
    List (String × List String) :=
  cp.map fun pr => (pr.1, pr.2.map fun e => e.1)

/-- Count the word occurrences and adjacent-pair occurrences of one
tokenized corpus line, as the body of the training loop does. -/
def trainTokensStep (m : Model) (tokens : List String) : Model :=
  ⟨(tokens.zip tokens.tail).foldl bump m.bigram_counts,
   tokens.foldl bump m.word_counts,
   m.cumulative_probs⟩

/-- BigramModel.train with the file reading stripped away: the lines of
the corpus file are passed in directly.  Each line is stripped,
lowercased and tokenized; empty token lists are skipped; afterwards the
cumulative probabilities are rebuilt, under the set iteration order
so. -/
def train (so : List String → List String) (lines : List String) : Model :=
  let m := lines.foldl
    (fun m line =>
      let tokens := tokenize (pyLower (pyStrip line))
      if tokens = [] then m else trainTokensStep m tokens)
    ⟨[], [], []⟩
  ⟨m.bigram_counts, m.word_counts,
   calculate_cumulative_probabilities so m.bigram_counts⟩

/-- The state of the random module: a stream of values in the unit
interval indexed by draw position, and the position of the next draw. -/
structure RandState where
  stream : Nat → ℚ
  pos : Nat

/-- The record returned by BigramModel.sample. -/
structure SampleResult where
  completion : String
  tokens : List String
deriving Repr, DecidableEq

/-- Dictionary membership and lookup in self.cumulative_probs. -/
def lookupCP (cp : List (String × List (String × ℚ))) (w : String) :
    Option (List (String × ℚ)) :=
  (cp.find? fun e => e.1 = w).map fun e => e.2

/-- The inner for loop of BigramModel.sample: the chosen successor is
the first entry of the distribution whose cumulative probability
strictly exceeds the draw; none models the for-else branch where no
entry qualifies. -/
def chooseNext (dist : List (String × ℚ)) (r : ℚ) : Option String :=
  (dist.find? fun e => r < e.2).map fun e => e.1

/-- The Python expression " ".join(l). -/
def joinSpace : List String → String
  | [] => ""
  | [s] => s
  | s :: rest => s ++ " " ++ joinSpace rest

/-- The generation loop of BigramModel.sample, running for at most
maxTokens iterations over the completion list.  Reading the last
element of an empty completion raises IndexError in Python; that
program point is the none result.  Both halting branches (unknown last
word, and no distribution entry exceeding the draw) return the
completion built so far. -/
def sampleLoop (cp : List (String × List (String × ℚ))) :
    Nat → RandState → List String → Option (List String) × RandState
  | 0, rs, comp => (some comp, rs)
  | fuel + 1, rs, comp =>
    match comp.getLast? with
    | none => (none, rs)
    | some last =>
      match lookupCP cp last with
      | none => (some comp, rs)
      | some dist =>
        let r := rs.stream rs.pos
        let rs2 : RandState := ⟨rs.stream, rs.pos + 1⟩
        match chooseNext dist r with
        | none => (some comp, rs2)
        | some w => sampleLoop cp fuel rs2 (comp ++ [w])

/-- BigramModel.sample.  The parameter rngOf gives the deterministic
stream produced by random.seed at a given seed value; rs0 is the
ambient state of the random module before the call, used unchanged
when no seed is supplied.  The first component is the returned record,
none standing for an uncaught IndexError; the second component is the
state of the random module after the call. -/
def sample (rngOf : Int → Nat → ℚ) (m : Model) (pre : String)
    (maxTokens : Nat) (seed : Option Int) (rs0 : RandState) :
    Option SampleResult × RandState :=
  let rs1 : RandState := match seed with
    | some s => ⟨rngOf s, 0⟩
    | none => rs0
  let tokens := tokenize (pyLower (pyStrip pre))
  match sampleLoop m.cumulative_probs maxTokens rs1 tokens with
  | (none, rs2) => (none, rs2)
  | (some comp, rs2) =>
    (some ⟨joinSpace (comp.drop tokens.length), comp.drop tokens.length⟩, rs2)

/-- BigramModel.sample viewed as a method: the Python body reads
self.cumulative_probs and assigns no attribute of self, so the object
state after the call is the object state before it; only the state of
the random module changes. -/
def sampleMethod (rngOf : Int → Nat → ℚ) (m : Model) (pre : String)
    (maxTokens : Nat) (seed : Option Int) (rs0 : RandState) :
    Option SampleResult × Model × RandState :=
  ((sample rngOf m pre maxTokens seed rs0).1, m,
   (sample rngOf m pre maxTokens seed rs0).2)

/-- A Python value appearing as a dictionary key in the model_data
record passed to json.dump: the keys of word_counts are strings, the
keys of bigram_counts are pairs (tuples). -/
inductive PyKey where
  | pystr : String → PyKey
  | pypair : String → String → PyKey
deriving Repr, DecidableEq

/-- json.dump on a dictionary key: only str, int, float, bool and None
keys are serializable, and a tuple key raises TypeError. -/
def jsonKeyOf : PyKey → Except String String
  | .pystr s => .ok s
  | .pypair _ _ => .error "keys must be str, int, float, bool or None, not tuple"

/-- json.dump on the entries of a dictionary, failing on the first
non-serializable key. -/
def dumpEntries : List (PyKey × Nat) → Except String (List (String × Nat))
  | [] => .ok []
  | (k, v) :: rest =>
    match jsonKeyOf k with
    | .error e => .error e
    | .ok ks =>
      match dumpEntries rest with
      | .error e => .error e
      | .ok rest2 => .ok ((ks, v) :: rest2)

/-- The JSON document save_model would write on success: two objects
whose keys are strings. -/
structure SavedModel where
  bigram_counts : List (String × Nat)
  word_counts : List (String × Nat)
deriving Repr, DecidableEq

/-- BigramModel.save_model with the file write stripped away:
serialize the record with fields bigram_counts and word_counts through
json.dump, or raise the TypeError json.dump raises. -/
def save_model (m : Model) : Except String SavedModel :=
  match dumpEntries (m.bigram_counts.map fun e => (PyKey.pypair e.1.1 e.1.2, e.2)) with
  | .error e => .error e
  | .ok bc =>
    match dumpEntries (m.word_counts.map fun e => (PyKey.pystr e.1, e.2)) with
    | .error e => .error e
    | .ok wc => .ok ⟨bc, wc⟩

/-- A token counts as generated from the distributions cp when it is
listed, with some cumulative value, in the distribution of some
predecessor. -/
def tokenFromCP (cp : List (String × List (String × ℚ))) (t : String) : Prop :=
  ∃ p dist q, lookupCP cp p = some dist ∧ (t, q) ∈ dist

/-- Bigram counts with one predecessor and two successors, first
observed in the order b then c. -/
def exBC : BigramCounts := [(("a", "b"), 1), (("a", "c"), 1)]

/-- The bigram counts of the worked spec example: successors of p
first observed in the order x then y, with counts 3 and 1. -/
def exBC5 : BigramCounts := [(("p", "x"), 3), (("p", "y"), 1)]

/-- A model state holding the counts of the corpus with three lines
p x and one line p y, with distributions rebuilt under the identity
set iteration order. -/
def mEx : Model :=
  ⟨exBC5, [("p", 4), ("x", 3), ("y", 1)],
   calculate_cumulative_probabilities id exBC5⟩

section Lemmas

/-- The successor names of a cumulative list are exactly the successor
list it was built from, in order. -/
theorem cumListAux_map_fst (bc : BigramCounts) (p : String) (total : ℚ) :
    ∀ (l : List String) (acc : ℚ),
      (cumListAux bc p total l acc).map (fun e => e.1) = l
  | [], _ => rfl
  | s :: rest, acc => by
    simp [cumListAux, cumListAux_map_fst bc p total rest]

/-- The distribution builder lists, for each predecessor in insertion
order, exactly the successors the set iteration order yields. -/
theorem distNames_calc (so : List String → List String) (bc : BigramCounts) :
    distNames (calculate_cumulative_probabilities so bc) =
      (get_following_words bc).map fun pr => (pr.1, so pr.2) := by
  unfold distNames calculate_cumulative_probabilities
  rw [List.map_map]
  apply List.map_congr_left
  intro pr _
  simp [cumListAux_map_fst]

/-- Everything recorded by addFollowing either is the pair just added
or was already recorded. -/
theorem mem_addFollowing :
    ∀ (fw : List (String × List String)) (p s q : String) (l : List String),
      (q, l) ∈ addFollowing fw p s → ∀ w ∈ l,
        (q = p ∧ w = s) ∨ ∃ l0, (q, l0) ∈ fw ∧ w ∈ l0 := by
  intro fw
  induction fw with
  | nil =>
    intro p s q l hm w hw
    simp only [addFollowing, List.mem_singleton] at hm
    injection hm with hq hl
    subst hq; subst hl
    simp only [List.mem_singleton] at hw
    exact Or.inl ⟨rfl, hw⟩
  | cons hd rest ih =>
    intro p s q l hm w hw
    obtain ⟨q0, l0⟩ := hd
    simp only [addFollowing] at hm
    by_cases hqp : q0 = p
    · rw [if_pos hqp] at hm
      rcases List.mem_cons.mp hm with heq | htail
      · injection heq with hq hl
        subst hq
        by_cases hs : s ∈ l0
        · rw [if_pos hs] at hl
          exact Or.inr ⟨l0, List.mem_cons_self _ _, hl ▸ hw⟩
        · rw [if_neg hs] at hl
          rcases List.mem_append.mp (hl ▸ hw) with hw0 | hw1
          · exact Or.inr ⟨l0, List.mem_cons_self _ _, hw0⟩
          · exact Or.inl ⟨hqp, List.mem_singleton.mp hw1⟩
      · exact Or.inr ⟨l, List.mem_cons_of_mem _ htail, hw⟩
    · rw [if_neg hqp] at hm
      rcases List.mem_cons.mp hm with heq | htail
      · injection heq with hq hl
        subst hq
        exact Or.inr ⟨l0, List.mem_cons_self _ _, hl ▸ hw⟩
      · rcases ih p s q l htail w hw with h | ⟨l1, hl1, hw1⟩
        · exact Or.inl h
        · exact Or.inr ⟨l1, List.mem_cons_of_mem _ hl1, hw1⟩

/-- Invariant carried over the fold of get_following_words: a
per-occurrence property of the bigram entries holds of everything the
fold records. -/
theorem foldl_addFollowing_mem (P : String → String → Prop) :
    ∀ (entries : List ((String × String) × Nat))
      (fw : List (String × List String)),
      (∀ q l, (q, l) ∈ fw → ∀ w ∈ l, P q w) →
      (∀ e ∈ entries, P e.1.1 e.1.2) →
      ∀ q l,
        (q, l) ∈ entries.foldl (fun fw e => addFollowing fw e.1.1 e.1.2) fw →
        ∀ w ∈ l, P q w := by
  intro entries
  induction entries with
  | nil =>
    intro fw hfw _ q l hm w hw
    exact hfw q l hm w hw
  | cons e rest ih =>
    intro fw hfw hent q l hm w hw
    refine ih (addFollowing fw e.1.1 e.1.2) ?_ (fun x hx => hent x (by simp [hx]))
      q l (by simpa using hm) w hw
    intro q1 l1 hm1 w1 hw1
    rcases mem_addFollowing fw e.1.1 e.1.2 q1 l1 hm1 w1 hw1 with ⟨hq, hw2⟩ | ⟨l2, hl2, hw2⟩
    · subst hq; subst hw2
      exact hent e (by simp)
    · exact hfw q1 l2 hl2 w1 hw2

/-- Every successor grouped under a predecessor comes from a recorded
bigram with that predecessor. -/
theorem gfw_mem_key (bc : BigramCounts) :
    ∀ q l, (q, l) ∈ get_following_words bc → ∀ w ∈ l,
      ∃ c, ((q, w), c) ∈ bc := by
  refine foldl_addFollowing_mem (fun q w => ∃ c, ((q, w), c) ∈ bc) bc [] ?_ ?_
  · intro q l hm
    simp at hm
  · intro e he
    exact ⟨e.2, by simpa using he⟩

/-- addFollowing never records an empty successor list. -/
theorem mem_addFollowing_ne_nil :
    ∀ (fw : List (String × List String)) (p s q : String) (l : List String),
      (∀ q0 l0, (q0, l0) ∈ fw → l0 ≠ []) →
      (q, l) ∈ addFollowing fw p s → l ≠ [] := by
  intro fw
  induction fw with
  | nil =>
    intro p s q l _ hm
    simp only [addFollowing, List.mem_singleton] at hm
    injection hm with _ hl
    rw [hl]
    exact List.cons_ne_nil _ _
  | cons hd rest ih =>
    intro p s q l hfw hm
    obtain ⟨q0, l0⟩ := hd
    simp only [addFollowing] at hm
    by_cases hqp : q0 = p
    · rw [if_pos hqp] at hm
      rcases List.mem_cons.mp hm with heq | htail
      · injection heq with _ hl
        by_cases hs : s ∈ l0
        · rw [if_pos hs] at hl
          rw [hl]
          exact hfw q0 l0 (List.mem_cons_self _ _)
        · rw [if_neg hs] at hl
          rw [hl]
          simp
      · exact hfw q l (List.mem_cons_of_mem _ htail)
    · rw [if_neg hqp] at hm
      rcases List.mem_cons.mp hm with heq | htail
      · injection heq with _ hl
        rw [hl]
        exact hfw q0 l0 (List.mem_cons_self _ _)
      · exact ih p s q l (fun q1 l1 h1 => hfw q1 l1 (List.mem_cons_of_mem _ h1))
          htail

/-- Every successor list grouped by get_following_words is
nonempty. -/
theorem gfw_ne_nil (bc : BigramCounts) :
    ∀ q l, (q, l) ∈ get_following_words bc → l ≠ [] := by
  suffices h : ∀ (entries : List ((String × String) × Nat))
      (fw : List (String × List String)),
      (∀ q l, (q, l) ∈ fw → l ≠ []) →
      ∀ q l,
        (q, l) ∈ entries.foldl (fun fw e => addFollowing fw e.1.1 e.1.2) fw →
        l ≠ [] by
    intro q l hm
    exact h bc [] (by intro q0 l0 h0; simp at h0) q l hm
  intro entries
  induction entries with
  | nil =>
    intro fw hfw q l hm
    exact hfw q l hm
  | cons e rest ih =>
    intro fw hfw q l hm
    refine ih (addFollowing fw e.1.1 e.1.2) ?_ q l (by simpa using hm)
    intro q1 l1 hm1
    exact mem_addFollowing_ne_nil fw e.1.1 e.1.2 q1 l1 hfw hm1

/-- When some entry of bigram_counts carries a given key and every
recorded count is at least one, the count looked up for that key is at
least one. -/
theorem lookupBC_getD_pos (bc : BigramCounts)
    (hpos : ∀ e ∈ bc, 1 ≤ e.2) (k : String × String)
    (hk : ∃ c, (k, c) ∈ bc) : 1 ≤ (lookupBC bc k).getD 0 := by
  obtain ⟨c, hc⟩ := hk
  unfold lookupBC
  cases hfind : bc.find? (fun e => e.1 = k) with
  | none =>
    exfalso
    have := List.find?_eq_none.mp hfind (k, c) hc
    simp at this
  | some e =>
    simp
    exact hpos e (List.mem_of_find?_eq_some hfind)

/-- Dividing every term of a sum by the same denominator divides the
sum. -/
theorem map_div_sum (l : List ℚ) (t : ℚ) :
    (l.map fun x => x / t).sum = l.sum / t := by
  induction l with
  | nil => simp
  | cons a rest ih => simp [ih, div_add_div_same]

/-- The last cumulative value produced by the inner loop is the
starting value plus the sum of all the increments. -/
theorem cumListAux_getLast? (bc : BigramCounts) (p : String) (total : ℚ) :
    ∀ (l : List String) (acc : ℚ), l ≠ [] →
      ∃ w0, (cumListAux bc p total l acc).getLast? =
        some (w0, acc +
          (l.map fun w => ((lookupBC bc (p, w)).getD 0 : ℚ) / total).sum) := by
  intro l
  induction l with
  | nil => intro acc h; exact absurd rfl h
  | cons s rest ih =>
    intro acc _
    cases rest with
    | nil =>
      refine ⟨s, ?_⟩
      simp [cumListAux]
    | cons s2 rest2 =>
      obtain ⟨w0, hw0⟩ := ih (acc + ((lookupBC bc (p, s)).getD 0 : ℚ) / total)
        (by simp)
      refine ⟨w0, ?_⟩
      have hstep : cumListAux bc p total (s :: s2 :: rest2) acc
          = (s, acc + ((lookupBC bc (p, s)).getD 0 : ℚ) / total)
            :: cumListAux bc p total (s2 :: rest2)
              (acc + ((lookupBC bc (p, s)).getD 0 : ℚ) / total) := rfl
      have htail : (cumListAux bc p total (s :: s2 :: rest2) acc).getLast?
          = (cumListAux bc p total (s2 :: rest2)
              (acc + ((lookupBC bc (p, s)).getD 0 : ℚ) / total)).getLast? := by
        rw [hstep, show cumListAux bc p total (s2 :: rest2)
            (acc + ((lookupBC bc (p, s)).getD 0 : ℚ) / total)
          = (s2, acc + ((lookupBC bc (p, s)).getD 0 : ℚ) / total
              + ((lookupBC bc (p, s2)).getD 0 : ℚ) / total)
            :: cumListAux bc p total rest2
              (acc + ((lookupBC bc (p, s)).getD 0 : ℚ) / total
                + ((lookupBC bc (p, s2)).getD 0 : ℚ) / total) from rfl,
          List.getLast?_cons_cons]
      rw [htail, hw0]
      simp [add_assoc]

/-- Membership in the builder output, unpacked: the distribution of p
is the inner loop run over the iteration order of the successor set of
p. -/
theorem calc_mem (bc : BigramCounts) (so : List String → List String)
    (p : String) (dist : List (String × ℚ)) :
    (p, dist) ∈ calculate_cumulative_probabilities so bc →
      ∃ l, (p, l) ∈ get_following_words bc ∧
        dist = cumListAux bc p
          ((so l).map fun w => ((lookupBC bc (p, w)).getD 0 : ℚ)).sum (so l) 0 := by
  intro hm
  unfold calculate_cumulative_probabilities at hm
  obtain ⟨pr, hpr, heq⟩ := List.mem_map.mp hm
  obtain ⟨h1, h2⟩ := Prod.mk.injEq .. ▸ heq
  refine ⟨pr.2, ?_, ?_⟩
  · rw [← h1]
    simpa using hpr
  · rw [← h2, h1]

/-- Under any set iteration order, when every recorded count is at
least one the final cumulative value of every distribution is exactly
one. -/
theorem calc_final_one (bc : BigramCounts) (so : List String → List String)
    (hv : isValidSetOrder so) (hpos : ∀ e ∈ bc, 1 ≤ e.2) :
    ∀ p dist, (p, dist) ∈ calculate_cumulative_probabilities so bc →
      ∃ last, dist.getLast? = some last ∧ last.2 = 1 := by
  intro p dist hm
  obtain ⟨l, hl, hdist⟩ := calc_mem bc so p dist hm
  have hlne : l ≠ [] := gfw_ne_nil bc p l hl
  have hperm := hv l
  have hsone : so l ≠ [] := by
    intro h0
    rw [h0] at hperm
    exact hlne (List.nil_perm.mp hperm)
  have hterm : ∀ w ∈ so l, (1 : ℚ) ≤ ((lookupBC bc (p, w)).getD 0 : ℚ) := by
    intro w hw
    have hwl : w ∈ l := hperm.mem_iff.mp hw
    have hkey := gfw_mem_key bc p l hl w hwl
    have := lookupBC_getD_pos bc hpos (p, w) hkey
    exact_mod_cast this
  set total : ℚ := ((so l).map fun w => ((lookupBC bc (p, w)).getD 0 : ℚ)).sum
    with htotal
  have htpos : 0 < total := by
    rw [htotal]
    apply List.sum_pos
    · intro x hx
      obtain ⟨w, hw, hxw⟩ := List.mem_map.mp hx
      rw [← hxw]
      exact lt_of_lt_of_le one_pos (hterm w hw)
    · simp [hsone]
  obtain ⟨w0, hw0⟩ := cumListAux_getLast? bc p total (so l) 0 hsone
  refine ⟨(w0, 1), ?_, rfl⟩
  rw [hdist, hw0]
  have hsum : ((so l).map fun w => ((lookupBC bc (p, w)).getD 0 : ℚ) / total).sum
      = total / total := by
    have hcomp : ((so l).map fun w => ((lookupBC bc (p, w)).getD 0 : ℚ) / total)
        = (((so l).map fun w => ((lookupBC bc (p, w)).getD 0 : ℚ)).map
            fun x => x / total) := by
      rw [List.map_map]
      rfl
    rw [hcomp, map_div_sum, htotal]
  rw [hsum, div_self (ne_of_gt htpos), zero_add]

/-- A successful lookup in the builder output identifies a grouped
predecessor whose distribution lists, in set iteration order, its
grouped successors. -/
theorem lookupCP_calc (bc : BigramCounts) (so : List String → List String)
    (p : String) (dist : List (String × ℚ)) :
    lookupCP (calculate_cumulative_probabilities so bc) p = some dist →
      ∃ l, (p, l) ∈ get_following_words bc ∧
        dist.map (fun e => e.1) = so l := by
  intro hm
  unfold lookupCP at hm
  obtain ⟨e, hfind, he2⟩ := Option.map_eq_some'.mp hm
  have hep : e.1 = p := by
    have := List.find?_some hfind
    simpa using this
  have hmem : (p, dist) ∈ calculate_cumulative_probabilities so bc := by
    have := List.mem_of_find?_eq_some hfind
    rw [← hep, ← he2]
    simpa using this
  obtain ⟨l, hl, hdist⟩ := calc_mem bc so p dist hmem
  exact ⟨l, hl, by rw [hdist, cumListAux_map_fst]⟩

/-- Whatever a successful run of the generation loop appended to the
starting completion was read off some distribution of cp. -/
theorem sampleLoop_new (cp : List (String × List (String × ℚ))) :
    ∀ (fuel : Nat) (rs : RandState) (comp comp2 : List String)
      (rs2 : RandState),
      sampleLoop cp fuel rs comp = (some comp2, rs2) →
      ∃ new, comp2 = comp ++ new ∧ ∀ t ∈ new, tokenFromCP cp t := by
  intro fuel
  induction fuel with
  | zero =>
    intro rs comp comp2 rs2 h
    simp only [sampleLoop] at h
    injection h with h1 _
    injection h1 with h1
    exact ⟨[], by rw [← h1, List.append_nil], by intro t ht; simp at ht⟩
  | succ fuel ih =>
    intro rs comp comp2 rs2 h
    cases hlast : comp.getLast? with
    | none =>
      simp only [sampleLoop, hlast] at h
      injection h with h1 _
      simp at h1
    | some last =>
      cases hcp : lookupCP cp last with
      | none =>
        simp only [sampleLoop, hlast, hcp] at h
        injection h with h1 _
        injection h1 with h1
        exact ⟨[], by rw [← h1, List.append_nil], by intro t ht; simp at ht⟩
      | some dist =>
        cases hch : chooseNext dist (rs.stream rs.pos) with
        | none =>
          simp only [sampleLoop, hlast, hcp, hch] at h
          injection h with h1 _
          injection h1 with h1
          exact ⟨[], by rw [← h1, List.append_nil], by intro t ht; simp at ht⟩
        | some w =>
          simp only [sampleLoop, hlast, hcp, hch] at h
          obtain ⟨new, hnew, hall⟩ := ih _ _ _ _ h
          refine ⟨w :: new, ?_, ?_⟩
          · rw [hnew, List.append_assoc, List.singleton_append]
          · intro t ht
            rcases List.mem_cons.mp ht with hteq | htnew
            · subst hteq
              obtain ⟨e, hfind, he1⟩ := Option.map_eq_some'.mp hch
              refine ⟨last, dist, e.2, hcp, ?_⟩
              have := List.mem_of_find?_eq_some hfind
              rw [← he1]
              simpa using this
            · exact hall t htnew

/-- The part of the loop result beyond the starting tokens was read
off some distribution of cp. -/
theorem sample_finish_fromCP (cp : List (String × List (String × ℚ)))
    (tokens comp : List String) (fuel : Nat) (rs1 rsf : RandState)
    (hsl : sampleLoop cp fuel rs1 tokens = (some comp, rsf)) :
    ∀ t ∈ comp.drop tokens.length, tokenFromCP cp t := by
  obtain ⟨new, hnew, hall⟩ := sampleLoop_new cp fuel rs1 tokens comp rsf hsl
  intro t ht
  rw [hnew, List.drop_left] at ht
  exact hall t ht

/-- Every token returned by sample beyond the prefix tokens was read
off some distribution of the model. -/
theorem sample_tokens_fromCP (rngOf : Int → Nat → ℚ) (m : Model)
    (pre : String) (maxTokens : Nat) (seed : Option Int) (rs : RandState)
    (res : SampleResult)
    (hres : (sample rngOf m pre maxTokens seed rs).1 = some res) :
    ∀ t ∈ res.tokens, tokenFromCP m.cumulative_probs t := by
  intro t ht
  cases seed with
  | none =>
    simp only [sample] at hres
    rcases hsl : sampleLoop m.cumulative_probs maxTokens rs
        (tokenize (pyLower (pyStrip pre))) with ⟨o, rsf⟩
    rw [hsl] at hres
    cases o with
    | none => simp at hres
    | some comp =>
      simp only [Option.some.injEq] at hres
      rw [← hres] at ht
      exact sample_finish_fromCP _ _ _ _ _ _ hsl t ht
  | some s =>
    simp only [sample] at hres
    rcases hsl : sampleLoop m.cumulative_probs maxTokens
        (⟨rngOf s, 0⟩ : RandState)
        (tokenize (pyLower (pyStrip pre))) with ⟨o, rsf⟩
    rw [hsl] at hres
    cases o with
    | none => simp at hres
    | some comp =>
      simp only [Option.some.injEq] at hres
      rw [← hres] at ht
      exact sample_finish_fromCP _ _ _ _ _ _ hsl t ht

end Lemmas

section Claims

/-- C1: the claim says sample with a prefix that tokenizes to zero
tokens halts immediately with an empty completion for every maxTokens
at least zero.  In the code, for every model, seed and maxTokens of
the form k + 1, the very first loop iteration reads the last element
of the empty completion list and raises IndexError; the none result is
exactly that uncaught exception. -/
theorem sample_empty_prefix_raises_index_error (m : Model)
    (rngOf : Int → Nat → ℚ) (rs : RandState) (seed : Option Int) (k : Nat) :
    (sample rngOf m "" (k + 1) seed rs).1 = none := by
  cases seed <;> rfl

/-- C2, counterexample: the successors of a are first observed in the
order b then c, yet under the reversed set iteration order, which
lists each element of the successor set exactly once and so is a
possible CPython iteration order, the builder lists them as c then b.
The claim that the builder always lists successors in
first-observation order is therefore false. -/
theorem successor_order_not_first_observation :
    isValidSetOrder List.reverse ∧
    get_following_words exBC = [("a", ["b", "c"])] ∧
    distNames (calculate_cumulative_probabilities List.reverse exBC)
      ≠ [("a", ["b", "c"])] := by
  refine ⟨fun l => List.reverse_perm l, by decide, ?_⟩
  rw [distNames_calc]
  decide

/-- C2, amended: the builder lists, for each predecessor in insertion
order of predecessors, the successors of that predecessor in the set
iteration order, which is some permutation of the distinct successors
in first-observation order; first-observation order itself is not
guaranteed. -/
theorem successor_order_is_set_order_perm (bc : BigramCounts)
    (so : List String → List String) (hv : isValidSetOrder so) :
    List.Forall₂ (fun d fw => d.1 = fw.1 ∧ (d.2.map fun e => e.1).Perm fw.2)
      (calculate_cumulative_probabilities so bc)
      (get_following_words bc) := by
  unfold calculate_cumulative_probabilities
  rw [List.forall₂_map_left_iff, List.forall₂_same]
  intro pr hpr
  dsimp only
  refine ⟨rfl, ?_⟩
  rw [cumListAux_map_fst]
  exact hv pr.2

/-- C2, witness for the amended claim at the concrete counts exBC and
the reversed set iteration order. -/
theorem successor_order_is_set_order_perm_witness :
    List.Forall₂ (fun d fw => d.1 = fw.1 ∧ (d.2.map fun e => e.1).Perm fw.2)
      (calculate_cumulative_probabilities List.reverse exBC)
      (get_following_words exBC) :=
  successor_order_is_set_order_perm exBC List.reverse
    (fun l => List.reverse_perm l)

/-- C3: the claim says saving a trained model and loading it back
succeeds.  In the code, json.dump raises TypeError on any model with
at least one recorded bigram, because the keys of bigram_counts are
tuples, which json cannot serialize; training on the single line a b
already produces such a model, so the round trip never starts. -/
theorem save_model_raises_type_error :
    save_model (train id ["a b"])
      = Except.error "keys must be str, int, float, bool or None, not tuple" := rfl

/-- C4: sampling with a supplied seed is deterministic: the result
depends only on the model, the prefix, maxTokens and the seed, not on
the ambient state of the random module, so two calls with the same
seed agree. -/
theorem sample_seeded_deterministic (rngOf : Int → Nat → ℚ) (m : Model)
    (pre : String) (maxTokens : Nat) (s : Int) (rs1 rs2 : RandState) :
    (sample rngOf m pre maxTokens (some s) rs1).1
      = (sample rngOf m pre maxTokens (some s) rs2).1 := rfl

/-- C5, counterexample: for the counts of exBC5, with successors of p
first observed in the order x then y, the builder yields the claimed
distribution only under a set iteration order that happens to agree
with first-observation order; under the reversed order, a possible
CPython iteration order, it yields the pairs for y then x instead, so
the claimed equality fails. -/
theorem distribution_example_depends_on_set_order :
    isValidSetOrder List.reverse ∧
    calculate_cumulative_probabilities List.reverse exBC5
      ≠ [("p", [("x", (3 : ℚ)/4), ("y", 1)])] := by
  refine ⟨fun l => List.reverse_perm l, fun h => ?_⟩
  have hd := congrArg distNames h
  rw [distNames_calc] at hd
  exact absurd hd (by decide)

/-- C5, amended: under the first-observation iteration order the
builder yields exactly the claimed pairs for exBC5, with exact values
three quarters and one; and for every bigram counts whose recorded
counts are all at least one, under every possible set iteration order,
the final cumulative value of every distribution is exactly one. -/
theorem distribution_example_and_final_one (bc : BigramCounts)
    (so : List String → List String) (hv : isValidSetOrder so)
    (hpos : ∀ e ∈ bc, 1 ≤ e.2) :
    calculate_cumulative_probabilities id exBC5
        = [("p", [("x", (3 : ℚ)/4), ("y", 1)])] ∧
      ∀ p dist, (p, dist) ∈ calculate_cumulative_probabilities so bc →
        ∃ last, dist.getLast? = some last ∧ last.2 = 1 := by
  constructor
  · simp [calculate_cumulative_probabilities, get_following_words,
      addFollowing, cumListAux, lookupBC, List.find?, exBC5]
    norm_num
  · exact calc_final_one bc so hv hpos

/-- C5, witness for the amended claim at the concrete counts exBC5 and
the identity set iteration order. -/
theorem distribution_example_and_final_one_witness :
    calculate_cumulative_probabilities id exBC5
        = [("p", [("x", (3 : ℚ)/4), ("y", 1)])] ∧
      ∀ p dist, (p, dist) ∈ calculate_cumulative_probabilities id exBC5 →
        ∃ last, dist.getLast? = some last ∧ last.2 = 1 :=
  distribution_example_and_final_one exBC5 id (fun l => List.Perm.refl l)
    (by decide)

/-- C6: sample with maxTokens zero returns an empty completion string
and an empty token sequence for every model, prefix and seed: the
generation loop runs zero times and the prefix tokens are split off
the returned completion. -/
theorem sample_zero_max_tokens_empty (rngOf : Int → Nat → ℚ) (m : Model)
    (pre : String) (seed : Option Int) (rs : RandState) :
    (sample rngOf m pre 0 seed rs).1 = some ⟨"", []⟩ := by
  cases seed <;> simp [sample, sampleLoop, List.drop_length, joinSpace]

/-- C7: when the prefix tokenizes to a nonempty sequence whose last
token has no entry in the distributions mapping, sample halts on its
first iteration and returns an empty completion string and an empty
token sequence, for every maxTokens and seed, with no error. -/
theorem sample_unknown_last_token_empty (rngOf : Int → Nat → ℚ) (m : Model)
    (pre : String) (maxTokens : Nat) (seed : Option Int) (rs : RandState)
    (w : String)
    (hlast : (tokenize (pyLower (pyStrip pre))).getLast? = some w)
    (hnone : lookupCP m.cumulative_probs w = none) :
    (sample rngOf m pre maxTokens seed rs).1 = some ⟨"", []⟩ := by
  cases maxTokens with
  | zero =>
    cases seed <;> simp [sample, sampleLoop, List.drop_length, joinSpace]
  | succ k =>
    cases seed <;>
      simp [sample, sampleLoop, hlast, hnone, List.drop_length, joinSpace]

/-- C7, witness: in the model mEx the token y never occurs as a
predecessor, and sampling from the prefix y returns the empty
completion. -/
theorem sample_unknown_last_token_empty_witness :
    (sample (fun _ _ => 0) mEx "y" 5 (some 1) ⟨fun _ => 0, 0⟩).1
      = some ⟨"", []⟩ :=
  sample_unknown_last_token_empty (fun _ _ => 0) mEx "y" 5 (some 1)
    ⟨fun _ => 0, 0⟩ "y" (by decide) (by decide)

/-- C8: the tokenizer keeps a quoted key-value span, spaces included,
as one token, returns the empty sequence on the empty string, and is a
total function of the input text. -/
theorem tokenize_examples_total :
    tokenize "open app=\"journal\"" = ["open", "app=\"journal\""] ∧
      tokenize "" = [] :=
  ⟨by decide, rfl⟩

/-- C9: sample reads but never writes the model state: after the call
the word counts, the bigram counts and the cumulative probability
distributions are the ones from before the call; only the state of
the random module may change. -/
theorem sample_does_not_mutate_model (rngOf : Int → Nat → ℚ) (m : Model)
    (pre : String) (maxTokens : Nat) (seed : Option Int) (rs : RandState) :
    ((sampleMethod rngOf m pre maxTokens seed rs).2.1.word_counts
        = m.word_counts) ∧
      ((sampleMethod rngOf m pre maxTokens seed rs).2.1.bigram_counts
        = m.bigram_counts) ∧
      ((sampleMethod rngOf m pre maxTokens seed rs).2.1.cumulative_probs
        = m.cumulative_probs) :=
  ⟨rfl, rfl, rfl⟩

/-- C10: for a model whose distributions were built from its bigram
counts under any possible set iteration order, every token of a
returned completion appears as the successor of some recorded bigram:
sampling never invents a token that was not observed during
training. -/
theorem sample_tokens_were_observed (rngOf : Int → Nat → ℚ)
    (rs : RandState) (m : Model) (so : List String → List String)
    (hv : isValidSetOrder so)
    (hm : m.cumulative_probs
      = calculate_cumulative_probabilities so m.bigram_counts)
    (pre : String) (maxTokens : Nat) (seed : Option Int)
    (res : SampleResult)
    (hres : (sample rngOf m pre maxTokens seed rs).1 = some res) :
    ∀ t ∈ res.tokens, ∃ p c, ((p, t), c) ∈ m.bigram_counts := by
  intro t ht
  obtain ⟨p, dist, q, hcp, htd⟩ := sample_tokens_fromCP rngOf m pre
    maxTokens seed rs res hres t ht
  rw [hm] at hcp
  obtain ⟨l, hl, hnames⟩ := lookupCP_calc m.bigram_counts so p dist hcp
  have htl : t ∈ so l := by
    rw [← hnames]
    exact List.mem_map.mpr ⟨(t, q), htd, rfl⟩
  obtain ⟨c, hc⟩ := gfw_mem_key m.bigram_counts p l hl t ((hv l).mem_iff.mp htl)
  exact ⟨p, c, hc⟩

/-- C10, witness: a concrete seeded run on mEx extends the prefix p by
the token x, and x is indeed the successor of a recorded bigram. -/
theorem sample_tokens_were_observed_witness :
    ∃ p c, ((p, "x"), c) ∈ mEx.bigram_counts := by
  have ht : tokenize (pyLower (pyStrip "p")) = ["p"] := by decide
  have hcp : mEx.cumulative_probs = [("p", [("x", (3 : ℚ)/4), ("y", 1)])] := by
    show calculate_cumulative_probabilities id exBC5 = _
    simp [calculate_cumulative_probabilities, get_following_words,
      addFollowing, cumListAux, lookupBC, List.find?, exBC5]
    norm_num
  have h34 : ((0 : ℚ) < 3/4) := by norm_num
  have hch : chooseNext [("x", (3 : ℚ)/4), ("y", (1 : ℚ))] 0 = some "x" := by
    simp [chooseNext, List.find?, h34]
  have hres : (sample (fun _ _ => 0) mEx "p" 1 (some 0) ⟨fun _ => 0, 0⟩).1
      = some ⟨"x", ["x"]⟩ := by
    rw [sample, ht]
    rw [hcp]
    simp [sampleLoop, lookupCP, List.find?, hch, joinSpace]
  exact sample_tokens_were_observed (fun _ _ => 0) ⟨fun _ => 0, 0⟩ mEx id
    (fun l => List.Perm.refl l) rfl "p" 1 (some 0) ⟨"x", ["x"]⟩ hres "x"
    (by decide)

end Claims

end OutloudMiniLM
